import Mathlib

/-!
Verification development for the schedule-planner program (`planner.py`).

The program keeps a catalog of classes (three parallel lists `classes`,
`terms`, `credits`, plus two dicts `class_terms`, `class_credits`) and
builds a 4-year x 3-term schedule by a greedy pass.

Python dicts are shallowly embedded as insertion-ordered association
lists: assignment to an existing key updates the value in place, a new key
is appended at the end, and `dict.pop` fails ("KeyError") when the key is
absent.  Integers are `Int`, exceptions are `Except String` (the string is
the error message / exception kind), and printing is modelled by returning
the printed data (the low-credit warning flag and the list of unplaced
class names).  The derived `pandas` dataframe `self.df` is write-only
output in the source (rebuilt from the lists, never read back) and is not
modelled.
-/

/-- Python dict lookup `d[k]` on an insertion-ordered association list:
    the first binding of the key, if any. -/
def dictFind {α : Type} (d : List (String × α)) (k : String) : Option α :=
  match d with
  | [] => none
  | (k', v) :: rest => if k' = k then some v else dictFind rest k

/-- Python dict assignment `d[k] = v`: update the first binding of `k` in
    place, or append a fresh binding at the end. -/
def dictInsert {α : Type} (d : List (String × α)) (k : String) (v : α) :
    List (String × α) :=
  match d with
  | [] => [(k, v)]
  | (k', v') :: rest =>
      if k' = k then (k, v) :: rest else (k', v') :: dictInsert rest k v

/-- Python `d.pop(k)` with no default: remove the binding of `k`, or fail
    (KeyError) when `k` is absent. -/
def dictPop {α : Type} (d : List (String × α)) (k : String) :
    Option (List (String × α)) :=
  match d with
  | [] => none
  | (k', v') :: rest =>
      if k' = k then some rest else (dictPop rest k).map (fun r => (k', v') :: r)

/-- The keys of an embedded dict, in insertion order. -/
def dictKeys {α : Type} (d : List (String × α)) : List String :=
  d.map (fun e => e.1)

/-- Python `sum(d.values())` for a dict with integer values. -/
def dictSum (d : List (String × Int)) : Int :=
  (d.map (fun e => e.2)).sum

/-- `QUOTA = 180` from `planner.py`. -/
def QUOTA : Int := 180

/-- `MAX_CREDS = 18` from `planner.py`. -/
def MAX_CREDS : Int := 18

/-- The mutable state of a `Planner` object: the three parallel lists and
    the two dicts built from them, plus the start year.  (`filename` and
    the derived dataframe `df` carry no behaviour and are omitted.) -/
structure Planner where
  classes : List String
  terms : List (List String)
  credits : List Int
  class_terms : List (String × List String)
  class_credits : List (String × Int)
  start_year : Int
deriving Repr, DecidableEq

/-- `Planner.get_total_credits`: `sum(self.credits)`. -/
def get_total_credits (p : Planner) : Int :=
  p.credits.sum

/-- `Planner.add_class`.  Returns the state after the call together with
    `none` on success or `some message` when a `ValueError` is raised; all
    validation precedes every mutation, as in the source, so a raising
    call returns the unchanged state. -/
def add_class (p : Planner) (class_name : String) (terms : List String)
    (credits : Int) : Planner × Option String :=
  if class_name ∈ p.classes then
    (p, some "Class already exists in the planner")
  else if ∃ t ∈ terms, ¬ (t = "F" ∨ t = "W" ∨ t = "S") then
    (p, some "Term must be F, W, or S")
  else if credits ≤ 0 then
    (p, some "Credits must be a positive integer")
  else
    ({ p with
        classes := p.classes ++ [class_name]
        terms := p.terms ++ [terms]
        credits := p.credits ++ [credits]
        class_terms := dictInsert p.class_terms class_name terms
        class_credits := dictInsert p.class_credits class_name credits },
     none)

/-- `Planner.remove_class`.  Mutations happen in source order, so a late
    IndexError/KeyError (possible only on inconsistent states) leaves the
    earlier mutations in place, exactly as the Python exception would. -/
def remove_class (p : Planner) (class_name : String) : Planner × Option String :=
  if class_name ∈ p.classes then
    let index := p.classes.indexOf class_name
    let p1 := { p with classes := p.classes.eraseIdx index }
    if index < p.terms.length then
      let p2 := { p1 with terms := p.terms.eraseIdx index }
      if index < p.credits.length then
        let p3 := { p2 with credits := p.credits.eraseIdx index }
        match dictPop p.class_terms class_name with
        | some ct =>
            let p4 := { p3 with class_terms := ct }
            match dictPop p.class_credits class_name with
            | some cc => ({ p4 with class_credits := cc }, none)
            | none => (p4, some "KeyError")
        | none => (p3, some "KeyError")
      else (p2, some "IndexError")
    else (p1, some "IndexError")
  else
    (p, some "Class does not exist in the planner")

/-- One year's slots: `schedule[year] = \x7b'F': \x7b\x7d, 'W': \x7b\x7d, 'S': \x7b\x7d\x7d`,
    each slot a dict from class name to credits. -/
structure YearSched where
  F : List (String × Int)
  W : List (String × Int)
  S : List (String × Int)
deriving Repr, DecidableEq

/-- The freshly initialised year: three empty slots. -/
def emptyYear : YearSched := ⟨[], [], []⟩

/-- `schedule[year][term]`: dict lookup on the year's three keys, failing
    (KeyError) on any other term string. -/
def getTerm (ys : YearSched) (t : String) : Option (List (String × Int)) :=
  if t = "F" then some ys.F
  else if t = "W" then some ys.W
  else if t = "S" then some ys.S
  else none

/-- Writing back an updated slot dict into the year. -/
def setTerm (ys : YearSched) (t : String) (s : List (String × Int)) : YearSched :=
  if t = "F" then { ys with F := s }
  else if t = "W" then { ys with W := s }
  else if t = "S" then { ys with S := s }
  else ys

/-- The inner loop `for term in terms:` of `create_schedule` for one class:
    look the slot up, look the class's credits up
    (`self.get_class_credits(class_name)`, KeyError when absent), and when
    `sum(slot.values()) + credits <= MAX_CREDS` place the class in the slot
    and append its name to `classes_added`.  Note the source does NOT stop
    after a successful placement: the loop keeps walking the remaining
    eligible terms. -/
def tryTerms (cc : List (String × Int)) (class_name : String)
    (ys : YearSched) (added : List String) :
    List String → Except String (YearSched × List String)
  | [] => .ok (ys, added)
  | t :: rest =>
      match getTerm ys t with
      | none => .error "KeyError: term"
      | some slot =>
          match dictFind cc class_name with
          | none => .error "KeyError: get_class_credits"
          | some c =>
              if dictSum slot + c ≤ MAX_CREDS then
                tryTerms cc class_name
                  (setTerm ys t (dictInsert slot class_name c))
                  (added ++ [class_name]) rest
              else
                tryTerms cc class_name ys added rest

/-- The middle loop `for class_name, terms in class_terms_copy.items():`
    over one year, starting from the year's current slots and the current
    `classes_added` list. -/
def passClasses (cc : List (String × Int)) (ys : YearSched)
    (added : List String) :
    List (String × List String) → Except String (YearSched × List String)
  | [] => .ok (ys, added)
  | (class_name, terms) :: rest =>
      match tryTerms cc class_name ys added terms with
      | .error e => .error e
      | .ok (ys', added') => passClasses cc ys' added' rest

/-- The year-end cleanup `for c in classes_added: class_terms_copy.pop(c)`:
    sequential pops, each failing (KeyError) when the key is already gone. -/
def popAll (ctc : List (String × List String)) :
    List String → Except String (List (String × List String))
  | [] => .ok ctc
  | c :: cs =>
      match dictPop ctc c with
      | none => .error "KeyError: pop"
      | some ctc' => popAll ctc' cs

/-- `years = [start_year, start_year + 1, start_year + 2, start_year + 3]`. -/
def years (start_year : Int) : List Int :=
  [start_year, start_year + 1, start_year + 2, start_year + 3]

/-- The outer loop `for year in years:` of `create_schedule`: run the
    year's class pass on fresh empty slots, remove the placed classes from
    the working copy, record the year, continue.  Returns the finished
    schedule together with the final working copy (whose keys are the
    unplaced classes). -/
def buildYears (cc : List (String × Int)) (ctc : List (String × List String))
    (sched : List (Int × YearSched)) :
    List Int →
    Except String (List (Int × YearSched) × List (String × List String))
  | [] => .ok (sched, ctc)
  | y :: ys =>
      match passClasses cc emptyYear [] ctc with
      | .error e => .error e
      | .ok (yearSched, added) =>
          match popAll ctc added with
          | .error e => .error e
          | .ok ctc' => buildYears cc ctc' (sched ++ [(y, yearSched)]) ys

/-- What a `create_schedule` call observably produces: whether the
    low-credit warning was printed, and either the returned schedule
    together with the printed list of unplaced class names, or the
    uncaught exception's message. -/
structure BuildResult where
  lowQuotaWarning : Bool
  result : Except String (List (Int × YearSched) × List String)
deriving Repr

/-- `Planner.create_schedule`: warn when `get_total_credits() < QUOTA`,
    then run the greedy year-by-year allocation over a copy of
    `class_terms`.  The unplaced-class warning's payload
    (`class_terms_copy.keys()`) is returned alongside the schedule. -/
def create_schedule (p : Planner) : BuildResult :=
  { lowQuotaWarning := get_total_credits p < QUOTA
    result :=
      match buildYears p.class_credits p.class_terms [] (years p.start_year) with
      | .error e => .error e
      | .ok (sched, ctc) => .ok (sched, dictKeys ctc) }

/-- The slot of a year under a term string (empty for a non-term string);
    read-only companion of `getTerm` used to state properties. -/
def slotOf (ys : YearSched) (t : String) : List (String × Int) :=
  if t = "F" then ys.F else if t = "W" then ys.W else if t = "S" then ys.S else []

/-- All class names appearing in some slot of a year. -/
def yearLabels (ys : YearSched) : List String :=
  dictKeys ys.F ++ dictKeys ys.W ++ dictKeys ys.S

/-- All class names appearing somewhere in a schedule. -/
def schedLabels (sched : List (Int × YearSched)) : List String :=
  (sched.map (fun e => yearLabels e.2)).flatten

/-- A slot is sound for a credits dict `cc`: its total respects the
    18-credit cap and every entry records exactly the class's credits. -/
def SlotOk (cc : List (String × Int)) (s : List (String × Int)) : Prop :=
  dictSum s ≤ MAX_CREDS ∧ ∀ e ∈ s, dictFind cc e.1 = some e.2

/-- All three slots of a year are sound. -/
def YearOk (cc : List (String × Int)) (ys : YearSched) : Prop :=
  SlotOk cc ys.F ∧ SlotOk cc ys.W ∧ SlotOk cc ys.S

/-- Every class of a year sits in a term drawn from its entry in the
    catalog dict `d`. -/
def EligibleYear (d : List (String × List String)) (ys : YearSched) : Prop :=
  ∀ t l, l ∈ dictKeys (slotOf ys t) → ∃ ts, (l, ts) ∈ d ∧ t ∈ ts

/-- Consistency of the Planner's redundant structures: equal list lengths,
    dict key sets matching the label list, and the dicts agreeing with the
    parallel lists index by index. -/
def ConsistentState (p : Planner) : Prop :=
  p.classes.length = p.terms.length ∧
  p.classes.length = p.credits.length ∧
  (∀ k, (dictFind p.class_terms k).isSome = true ↔ k ∈ p.classes) ∧
  (∀ k, (dictFind p.class_credits k).isSome = true ↔ k ∈ p.classes) ∧
  (∀ i (h : i < p.classes.length),
      dictFind p.class_terms (p.classes.get ⟨i, h⟩) = p.terms[i]?) ∧
  (∀ i (h : i < p.classes.length),
      dictFind p.class_credits (p.classes.get ⟨i, h⟩) = p.credits[i]?)

/-- Label uniqueness: no duplicate class labels, and (as in any real
    Python dict) no duplicate keys in the embedded dicts. -/
def UniqueLabels (p : Planner) : Prop :=
  p.classes.Nodup ∧ (dictKeys p.class_terms).Nodup ∧ (dictKeys p.class_credits).Nodup

/-- Catalog with the single course X, eligible terms [F, W], 6 credits. -/
def plannerXFW : Planner :=
  ⟨["X"], [["F", "W"]], [6], [("X", ["F", "W"])], [("X", 6)], 22⟩

/-- The catalog of the spec's single-course scenario: X with eligible
    terms [F, W, S] and 6 credits, start year 22. -/
def plannerXFWS : Planner :=
  ⟨["X"], [["F", "W", "S"]], [6], [("X", ["F", "W", "S"])], [("X", 6)], 22⟩

/-- The catalog of the spec's cap scenario: A ([F], 18 credits) then
    B ([F], 4 credits), start year 22. -/
def plannerAB : Planner :=
  ⟨["A", "B"], [["F"], ["F"]], [18, 4],
   [("A", ["F"]), ("B", ["F"])], [("A", 18), ("B", 4)], 22⟩

/-- A one-course catalog on which `create_schedule` returns normally. -/
def plannerSingle : Planner :=
  ⟨["ALG 1"], [["F"]], [4], [("ALG 1", ["F"])], [("ALG 1", 4)], 22⟩

/-- Same scheduling inputs as `plannerSingle` but a `credits` list whose
    total meets the quota. -/
def plannerQuotaHigh : Planner :=
  ⟨["ALG 1"], [["F"]], [200], [("ALG 1", ["F"])], [("ALG 1", 4)], 22⟩

/-- A catalog with zero courses. -/
def plannerEmpty : Planner := ⟨[], [], [], [], [], 22⟩

/-- A state whose `classes` list holds the label A twice while the dicts
    hold it once; it satisfies `ConsistentState` as stated. -/
def plannerDupA : Planner :=
  ⟨["A", "A"], [["F"], ["F"]], [4, 4], [("A", ["F"])], [("A", 4)], 22⟩

/-- Lookup after a dict assignment: the assigned key reads back the new
    value, every other key is untouched. -/
theorem dictFind_dictInsert {α : Type} (d : List (String × α)) (k q : String) (v : α) :
    dictFind (dictInsert d k v) q = if k = q then some v else dictFind d q := by
  induction d with
  | nil => by_cases h : k = q <;> simp [dictInsert, dictFind, h]
  | cons e rest ih =>
      obtain ⟨k0, v0⟩ := e
      by_cases h0 : k0 = k
      · subst h0
        by_cases h : k0 = q <;> simp [dictInsert, dictFind, h]
      · by_cases h1 : k0 = q
        · subst h1
          have hk : ¬ (k = k0) := fun hh => h0 hh.symm
          simp [dictInsert, dictFind, h0, hk]
        · simp [dictInsert, dictFind, h0, h1, ih]

/-- C1: the claim says a course is placed by the first eligible term with
    room and is then removed from all further consideration, so that no
    course label ever appears in two slots.  The code violates this: for
    the catalog holding only course X with eligible terms [F, W] and 6
    credits, the year pass places X into both the FALL and the WINTER slot
    of the first year (appending X to `classes_added` twice), and the
    year-end removal then raises KeyError on the second `pop`, so
    `create_schedule` raises instead of returning a schedule. -/
theorem create_schedule_places_twice_then_keyerror :
    passClasses plannerXFW.class_credits emptyYear [] plannerXFW.class_terms
      = .ok (⟨[("X", 6)], [("X", 6)], []⟩, ["X", "X"])
    ∧ (create_schedule plannerXFW).result = .error "KeyError: pop" :=
  ⟨rfl, rfl⟩

/-- C2: the claim says the catalog with only X ([F, W, S], 6 credits) and
    start year 22 yields X exactly once, in year 22 FALL.  The code
    instead places X in all three terms of year 22 and then raises
    KeyError while removing X from the working copy a second time, so no
    schedule is returned at all. -/
theorem create_schedule_crashes_on_spec_scenario :
    passClasses plannerXFWS.class_credits emptyYear [] plannerXFWS.class_terms
      = .ok (⟨[("X", 6)], [("X", 6)], [("X", 6)]⟩, ["X", "X", "X"])
    ∧ (create_schedule plannerXFWS).result = .error "KeyError: pop" :=
  ⟨rfl, rfl⟩

/-- C8: on the catalog A ([F], 18 credits) then B ([F], 4 credits) with
    start year 22, the code puts A into year 22 FALL (filling the cap),
    skips B everywhere in year 22, places B into year 23 FALL, and reports
    no unplaced courses. -/
theorem create_schedule_cap_scenario :
    create_schedule plannerAB =
      { lowQuotaWarning := true
        result := .ok
          ([(22, ⟨[("A", 18)], [], []⟩), (23, ⟨[("B", 4)], [], []⟩),
            (24, emptyYear), (25, emptyYear)], []) } :=
  rfl

/-- C9: on a catalog with zero courses, `create_schedule` does not raise:
    it deterministically returns the valid empty schedule of exactly 4
    consecutive years starting at `start_year`, each with the three empty
    term slots, and an empty unplaced set. -/
theorem create_schedule_empty_catalog (p : Planner) (h : p.class_terms = []) :
    (create_schedule p).result =
      .ok ([(p.start_year, emptyYear), (p.start_year + 1, emptyYear),
            (p.start_year + 2, emptyYear), (p.start_year + 3, emptyYear)], []) := by
  simp [create_schedule, buildYears, years, passClasses, popAll, h, dictKeys, emptyYear]

/-- Witness for C9: the concrete empty catalog with start year 22. -/
theorem create_schedule_empty_catalog_witness :
    (create_schedule plannerEmpty).result =
      .ok ([(22, emptyYear), (23, emptyYear), (24, emptyYear), (25, emptyYear)], []) :=
  create_schedule_empty_catalog plannerEmpty rfl

/-- C6: the low-credit warning is absent exactly when the catalog-wide
    total `get_total_credits` meets the 180-credit quota, and the built
    schedule (the `result` component) depends only on the catalog dicts
    and the start year — the quota comparison never blocks building. -/
theorem create_schedule_quota_report (p q : Planner)
    (hct : p.class_terms = q.class_terms) (hcc : p.class_credits = q.class_credits)
    (hy : p.start_year = q.start_year) :
    ((create_schedule p).lowQuotaWarning = false ↔ QUOTA ≤ get_total_credits p)
    ∧ (create_schedule p).result = (create_schedule q).result := by
  constructor
  · simp [create_schedule, not_lt]
  · simp [create_schedule, hct, hcc, hy]

/-- Witness for C6: two states sharing catalog dicts and start year, one
    below quota and one above; the warning differs, the result agrees. -/
theorem create_schedule_quota_report_witness :
    (((create_schedule plannerQuotaHigh).lowQuotaWarning = false ↔
        QUOTA ≤ get_total_credits plannerQuotaHigh)
      ∧ (create_schedule plannerQuotaHigh).result = (create_schedule plannerSingle).result)
    ∧ (create_schedule plannerQuotaHigh).lowQuotaWarning = false
    ∧ (create_schedule plannerSingle).lowQuotaWarning = true :=
  ⟨create_schedule_quota_report plannerQuotaHigh plannerSingle rfl rfl rfl, rfl, rfl⟩

/-- C7: `add_class` fails with the duplicate-class error when the label is
    present, with the invalid-term error when some term tag is outside
    F/W/S, with the invalid-credits error when credits are nonpositive; a
    failing call returns the state unchanged, and a succeeding call grows
    `classes` by exactly one and records the new course's terms and
    credits. -/
theorem add_class_spec (p : Planner) (name : String) (ts : List String) (c : Int) :
    (name ∈ p.classes →
      add_class p name ts c = (p, some "Class already exists in the planner"))
    ∧ (name ∉ p.classes → (∃ t ∈ ts, ¬ (t = "F" ∨ t = "W" ∨ t = "S")) →
      add_class p name ts c = (p, some "Term must be F, W, or S"))
    ∧ (name ∉ p.classes → (¬ ∃ t ∈ ts, ¬ (t = "F" ∨ t = "W" ∨ t = "S")) → c ≤ 0 →
      add_class p name ts c = (p, some "Credits must be a positive integer"))
    ∧ ((add_class p name ts c).2 ≠ none → (add_class p name ts c).1 = p)
    ∧ ((add_class p name ts c).2 = none →
        (add_class p name ts c).1.classes.length = p.classes.length + 1
        ∧ dictFind (add_class p name ts c).1.class_terms name = some ts
        ∧ dictFind (add_class p name ts c).1.class_credits name = some c) := by
  refine ⟨fun h1 => ?_, fun h1 h2 => ?_, fun h1 h2 h3 => ?_, ?_, ?_⟩ <;>
    unfold add_class
  · rw [if_pos h1]
  · rw [if_neg h1, if_pos h2]
  · rw [if_neg h1, if_neg h2, if_pos h3]
  · split_ifs with g1 g2 g3 <;> simp
  · split_ifs with g1 g2 g3 <;> simp [dictFind_dictInsert]

/-- Witness for C7: adding the already-present label "ALG 1" fails with
    the duplicate error and leaves the state untouched. -/
theorem add_class_spec_witness :
    add_class plannerSingle "ALG 1" ["F"] 4
      = (plannerSingle, some "Class already exists in the planner") :=
  (add_class_spec plannerSingle "ALG 1" ["F"] 4).1 (by decide)

/-- Keys of a cons dict. -/
theorem dictKeys_cons {α : Type} (e : String × α) (rest : List (String × α)) :
    dictKeys (e :: rest) = e.1 :: dictKeys rest := rfl

/-- Keys of a cons dict with a literal pair head. -/
theorem dictKeys_pair_cons {α : Type} (a : String) (b : α) (rest : List (String × α)) :
    dictKeys ((a, b) :: rest) = a :: dictKeys rest := rfl

/-- Slot total of a cons dict. -/
theorem dictSum_pair_cons (a : String) (b : Int) (rest : List (String × Int)) :
    dictSum ((a, b) :: rest) = b + dictSum rest := by
  simp [dictSum]

/-- An entry's key is among the dict's keys. -/
theorem mem_dictKeys_of_mem {α : Type} (d : List (String × α)) (k : String) (v : α)
    (h : (k, v) ∈ d) : k ∈ dictKeys d :=
  List.mem_map_of_mem (fun e => e.1) h

/-- A lookup succeeds exactly when the key occurs in the dict. -/
theorem dictFind_isSome_iff_mem {α : Type} (d : List (String × α)) (k : String) :
    (dictFind d k).isSome = true ↔ k ∈ dictKeys d := by
  induction d with
  | nil => simp [dictFind, dictKeys]
  | cons e rest ih =>
      unfold dictFind
      by_cases h : e.1 = k
      · simp [dictKeys_cons, h]
      · rw [if_neg h, dictKeys_cons, List.mem_cons, ih]
        constructor
        · exact fun hh => Or.inr hh
        · rintro (hh | hh)
          · exact absurd hh.symm h
          · exact hh

/-- A successful lookup returns an entry of the dict. -/
theorem dictFind_eq_some_mem {α : Type} (d : List (String × α)) (k : String) (v : α)
    (h : dictFind d k = some v) : (k, v) ∈ d := by
  induction d with
  | nil => simp [dictFind] at h
  | cons e rest ih =>
      unfold dictFind at h
      by_cases he : e.1 = k
      · rw [if_pos he] at h
        injection h with h
        have hkv : (k, v) = e := by rw [← he, ← h]
        rw [hkv]
        exact List.mem_cons_self e rest
      · rw [if_neg he] at h
        exact List.mem_cons_of_mem _ (ih h)

/-- Entries after an assignment: the assigned pair or an old entry. -/
theorem mem_dictInsert {α : Type} (d : List (String × α)) (k : String) (v : α)
    (e : String × α) (h : e ∈ dictInsert d k v) : e = (k, v) ∨ e ∈ d := by
  induction d with
  | nil =>
      unfold dictInsert at h
      rcases List.mem_cons.mp h with h | h
      · exact Or.inl h
      · simp at h
  | cons e0 rest ih =>
      unfold dictInsert at h
      by_cases h0 : e0.1 = k
      · rw [if_pos h0] at h
        rcases List.mem_cons.mp h with h | h
        · exact Or.inl h
        · exact Or.inr (List.mem_cons_of_mem _ h)
      · rw [if_neg h0] at h
        rcases List.mem_cons.mp h with h | h
        · exact Or.inr (by rw [h]; exact List.mem_cons_self e0 rest)
        · rcases ih h with h | h
          · exact Or.inl h
          · exact Or.inr (List.mem_cons_of_mem _ h)

/-- Keys after an assignment: the assigned key joins the old keys. -/
theorem dictKeys_dictInsert {α : Type} (d : List (String × α)) (k : String) (v : α)
    (l : String) : l ∈ dictKeys (dictInsert d k v) ↔ l = k ∨ l ∈ dictKeys d := by
  induction d with
  | nil => simp [dictInsert, dictKeys]
  | cons e0 rest ih =>
      unfold dictInsert
      by_cases h0 : e0.1 = k
      · rw [if_pos h0, dictKeys_pair_cons, dictKeys_cons, List.mem_cons, List.mem_cons, h0]
        tauto
      · rw [if_neg h0, dictKeys_cons, dictKeys_cons, List.mem_cons, List.mem_cons, ih]
        tauto

/-- Assigning a fresh key adds its value to the slot total. -/
theorem dictSum_dictInsert_none (d : List (String × Int)) (k : String) (v : Int)
    (h : dictFind d k = none) : dictSum (dictInsert d k v) = dictSum d + v := by
  induction d with
  | nil => simp [dictInsert, dictSum]
  | cons e0 rest ih =>
      obtain ⟨k0, v0⟩ := e0
      unfold dictFind at h
      by_cases h0 : k0 = k
      · rw [if_pos h0] at h; cases h
      · rw [if_neg h0] at h
        unfold dictInsert
        rw [if_neg h0, dictSum_pair_cons, dictSum_pair_cons, ih h]
        ring

/-- Overwriting an existing key swaps its old value for the new one in
    the slot total. -/
theorem dictSum_dictInsert_some (d : List (String × Int)) (k : String) (v w : Int)
    (h : dictFind d k = some w) : dictSum (dictInsert d k v) = dictSum d - w + v := by
  induction d with
  | nil => simp [dictFind] at h
  | cons e0 rest ih =>
      obtain ⟨k0, v0⟩ := e0
      unfold dictFind at h
      by_cases h0 : k0 = k
      · rw [if_pos h0] at h
        injection h with h
        unfold dictInsert
        rw [if_pos h0, dictSum_pair_cons, dictSum_pair_cons, h]
        ring
      · rw [if_neg h0] at h
        unfold dictInsert
        rw [if_neg h0, dictSum_pair_cons, dictSum_pair_cons, ih h]
        ring

/-- A successful pop keeps only entries of the original dict. -/
theorem dictPop_mem {α : Type} (d : List (String × α)) (k : String)
    (d' : List (String × α)) (h : dictPop d k = some d') :
    ∀ e ∈ d', e ∈ d := by
  induction d generalizing d' with
  | nil => simp [dictPop] at h
  | cons e0 rest ih =>
      unfold dictPop at h
      by_cases h0 : e0.1 = k
      · rw [if_pos h0] at h
        injection h with h
        intro e he
        exact List.mem_cons_of_mem _ (by rw [h]; exact he)
      · rw [if_neg h0] at h
        rw [Option.map_eq_some'] at h
        obtain ⟨r, hr, hd⟩ := h
        intro e he
        rw [← hd] at he
        rcases List.mem_cons.mp he with he | he
        · rw [he]; exact List.mem_cons_self e0 rest
        · exact List.mem_cons_of_mem _ (ih r hr e he)

/-- A pop succeeds only on a present key. -/
theorem dictPop_mem_keys {α : Type} (d : List (String × α)) (k : String)
    (d' : List (String × α)) (h : dictPop d k = some d') : k ∈ dictKeys d := by
  induction d generalizing d' with
  | nil => simp [dictPop] at h
  | cons e0 rest ih =>
      unfold dictPop at h
      by_cases h0 : e0.1 = k
      · rw [dictKeys_cons]
        exact List.mem_cons.mpr (Or.inl h0.symm)
      · rw [if_neg h0] at h
        rw [Option.map_eq_some'] at h
        obtain ⟨r, hr, _⟩ := h
        rw [dictKeys_cons]
        exact List.mem_cons.mpr (Or.inr (ih r hr))

/-- The keys after a successful pop are the old keys with the popped key
    erased (first occurrence). -/
theorem dictPop_keys {α : Type} (d : List (String × α)) (k : String)
    (d' : List (String × α)) (h : dictPop d k = some d') :
    dictKeys d' = (dictKeys d).erase k := by
  induction d generalizing d' with
  | nil => simp [dictPop] at h
  | cons e0 rest ih =>
      unfold dictPop at h
      by_cases h0 : e0.1 = k
      · rw [if_pos h0] at h
        injection h with h
        rw [← h, dictKeys_cons, List.erase_cons]
        simp [h0]
      · rw [if_neg h0] at h
        rw [Option.map_eq_some'] at h
        obtain ⟨r, hr, hd⟩ := h
        rw [← hd, dictKeys_cons, dictKeys_cons, List.erase_cons]
        simp only [h0, if_false]
        rw [ih r hr]
        simp [h0]

/-- With unique keys, every entry is found by lookup. -/
theorem dictFind_of_mem_nodup {α : Type} (d : List (String × α)) (k : String) (v : α)
    (hnd : (dictKeys d).Nodup) (h : (k, v) ∈ d) : dictFind d k = some v := by
  induction d with
  | nil => simp at h
  | cons e0 rest ih =>
      obtain ⟨k0, v0⟩ := e0
      rw [dictKeys_pair_cons] at hnd
      obtain ⟨hk0, hnd'⟩ := List.nodup_cons.mp hnd
      rcases List.mem_cons.mp h with h | h
      · rw [Prod.mk.injEq] at h
        obtain ⟨h1, h2⟩ := h
        unfold dictFind
        rw [if_pos h1.symm, h2]
      · by_cases h0 : k0 = k
        · exact absurd (by rw [h0]; exact mem_dictKeys_of_mem rest k v h) hk0
        · unfold dictFind
          rw [if_neg h0]
          exact ih hnd' h

/-- Unpacking a successful `getTerm`: the term string is one of the three
    literals and the slot is the matching field. -/
theorem getTerm_eq_some (ys : YearSched) (t : String) (s : List (String × Int))
    (h : getTerm ys t = some s) :
    (t = "F" ∧ s = ys.F) ∨ (t = "W" ∧ s = ys.W) ∨ (t = "S" ∧ s = ys.S) := by
  unfold getTerm at h
  split_ifs at h with hF hW hS
  · simp at h
    exact .inl ⟨hF, h.symm⟩
  · simp at h
    exact .inr (.inl ⟨hW, h.symm⟩)
  · simp at h
    exact .inr (.inr ⟨hS, h.symm⟩)

/-- A successful `getTerm` agrees with `slotOf`, and its term is valid. -/
theorem getTerm_some_slotOf (ys : YearSched) (t : String) (s : List (String × Int))
    (h : getTerm ys t = some s) :
    slotOf ys t = s ∧ (t = "F" ∨ t = "W" ∨ t = "S") := by
  rcases getTerm_eq_some ys t s h with ⟨h1, h2⟩ | ⟨h1, h2⟩ | ⟨h1, h2⟩ <;>
    subst h1 <;> simp [slotOf, h2]

/-- `slotOf` after `setTerm` at a valid term: the written term reads the
    new slot, every other term is untouched. -/
theorem slotOf_setTerm (ys : YearSched) (s : List (String × Int)) (t0 t : String)
    (h : t0 = "F" ∨ t0 = "W" ∨ t0 = "S") :
    slotOf (setTerm ys t0 s) t = if t = t0 then s else slotOf ys t := by
  rcases h with h | h | h <;> subst h <;>
    by_cases hF : t = "F" <;> by_cases hW : t = "W" <;> by_cases hS : t = "S" <;>
      simp_all [slotOf, setTerm]

/-- Membership in a year's labels, slot by slot. -/
theorem mem_yearLabels (ys : YearSched) (l : String) :
    l ∈ yearLabels ys ↔
      l ∈ dictKeys (slotOf ys "F") ∨ l ∈ dictKeys (slotOf ys "W")
        ∨ l ∈ dictKeys (slotOf ys "S") := by
  simp [yearLabels, slotOf]

/-- `slotOf` of the fresh year is empty at every term. -/
theorem slotOf_emptyYear (t : String) : slotOf emptyYear t = [] := by
  unfold slotOf emptyYear
  split_ifs <;> rfl

/-- A guarded insertion keeps a slot sound: a fresh key was checked
    against the cap, an overwrite rewrites the same value. -/
theorem slotOk_insert (cc : List (String × Int)) (s : List (String × Int))
    (cname : String) (c : Int) (hs : SlotOk cc s) (hc : dictFind cc cname = some c)
    (hle : dictSum s + c ≤ MAX_CREDS) : SlotOk cc (dictInsert s cname c) := by
  constructor
  · cases hf : dictFind s cname with
    | none =>
        rw [dictSum_dictInsert_none s cname c hf]
        exact hle
    | some w =>
        have hw : dictFind cc cname = some w :=
          hs.2 (cname, w) (dictFind_eq_some_mem s cname w hf)
        rw [hc] at hw
        injection hw with hw
        rw [dictSum_dictInsert_some s cname c w hf, ← hw]
        have h18 := hs.1
        omega
  · intro e he
    rcases mem_dictInsert s cname c e he with h | h
    · rw [h]
      exact hc
    · exact hs.2 e h

/-- The fresh year is sound for any credits dict. -/
theorem yearOk_emptyYear (cc : List (String × Int)) : YearOk cc emptyYear := by
  refine ⟨⟨?_, ?_⟩, ⟨?_, ?_⟩, ⟨?_, ?_⟩⟩ <;> simp [emptyYear, dictSum, MAX_CREDS]

/-- The inner term loop keeps every slot sound. -/
theorem tryTerms_ok_yearOk (cc : List (String × Int)) (cname : String)
    (ts : List String) :
    ∀ ys added ys' added', tryTerms cc cname ys added ts = .ok (ys', added') →
      YearOk cc ys → YearOk cc ys' := by
  induction ts with
  | nil =>
      intro ys added ys' added' h hok
      unfold tryTerms at h
      simp at h
      rw [← h.1]
      exact hok
  | cons t rest ih =>
      intro ys added ys' added' h hok
      unfold tryTerms at h
      split at h
      · simp at h
      next slot hg =>
        split at h
        · simp at h
        next c hc =>
          split at h
          next hle =>
            apply ih _ _ _ _ h
            have hnew : SlotOk cc (dictInsert slot cname c) := by
              apply slotOk_insert cc slot cname c ?_ hc hle
              rcases getTerm_eq_some ys t slot hg with ⟨h1, h2⟩ | ⟨h1, h2⟩ | ⟨h1, h2⟩ <;>
                rw [h2]
              · exact hok.1
              · exact hok.2.1
              · exact hok.2.2
            rcases getTerm_eq_some ys t slot hg with ⟨h1, h2⟩ | ⟨h1, h2⟩ | ⟨h1, h2⟩ <;>
              subst h1
            · have hys : setTerm ys "F" (dictInsert slot cname c)
                  = { ys with F := dictInsert slot cname c } := by simp [setTerm]
              rw [hys]
              exact ⟨hnew, hok.2.1, hok.2.2⟩
            · have hys : setTerm ys "W" (dictInsert slot cname c)
                  = { ys with W := dictInsert slot cname c } := by simp [setTerm]
              rw [hys]
              exact ⟨hok.1, hnew, hok.2.2⟩
            · have hys : setTerm ys "S" (dictInsert slot cname c)
                  = { ys with S := dictInsert slot cname c } := by simp [setTerm]
              rw [hys]
              exact ⟨hok.1, hok.2.1, hnew⟩
          next hle =>
            exact ih _ _ _ _ h hok

/-- The inner term loop only appends copies of the current class name to
    `classes_added`. -/
theorem tryTerms_added (cc : List (String × Int)) (cname : String) (ts : List String) :
    ∀ ys added ys' added', tryTerms cc cname ys added ts = .ok (ys', added') →
      ∃ ns, added' = added ++ ns ∧ ∀ l ∈ ns, l = cname := by
  induction ts with
  | nil =>
      intro ys added ys' added' h
      unfold tryTerms at h
      simp at h
      refine ⟨[], by simp [h.2], by simp⟩
  | cons t rest ih =>
      intro ys added ys' added' h
      unfold tryTerms at h
      split at h
      · simp at h
      next slot hg =>
        split at h
        · simp at h
        next c hc =>
          split at h
          next hle =>
            obtain ⟨ns, hns, hall⟩ := ih _ _ _ _ h
            refine ⟨cname :: ns, by simp [hns], ?_⟩
            intro l hl
            rcases List.mem_cons.mp hl with hl | hl
            · exact hl
            · exact hall l hl
          next hle =>
            exact ih _ _ _ _ h

/-- Slot keys only grow during the inner term loop. -/
theorem tryTerms_slot_mono (cc : List (String × Int)) (cname : String)
    (ts : List String) :
    ∀ ys added ys' added', tryTerms cc cname ys added ts = .ok (ys', added') →
      ∀ t0 l, l ∈ dictKeys (slotOf ys t0) → l ∈ dictKeys (slotOf ys' t0) := by
  induction ts with
  | nil =>
      intro ys added ys' added' h
      unfold tryTerms at h
      simp at h
      rw [← h.1]
      exact fun t0 l hl => hl
  | cons t rest ih =>
      intro ys added ys' added' h
      unfold tryTerms at h
      split at h
      · simp at h
      next slot hg =>
        split at h
        · simp at h
        next c hc =>
          obtain ⟨hsl, hval⟩ := getTerm_some_slotOf ys t slot hg
          split at h
          next hle =>
            intro t0 l hl
            apply ih _ _ _ _ h t0 l
            rw [slotOf_setTerm ys (dictInsert slot cname c) t t0 hval]
            by_cases ht : t0 = t
            · rw [if_pos ht]
              rw [ht, hsl] at hl
              exact (dictKeys_dictInsert slot cname c l).mpr (Or.inr hl)
            · rw [if_neg ht]
              exact hl
          next hle =>
            exact ih _ _ _ _ h

/-- Keys reaching a slot during the inner loop either were there before
    or are the current class placed at one of the walked terms. -/
theorem tryTerms_slot_sub (cc : List (String × Int)) (cname : String)
    (ts : List String) :
    ∀ ys added ys' added', tryTerms cc cname ys added ts = .ok (ys', added') →
      ∀ t0 l, l ∈ dictKeys (slotOf ys' t0) →
        l ∈ dictKeys (slotOf ys t0) ∨ (l = cname ∧ t0 ∈ ts) := by
  induction ts with
  | nil =>
      intro ys added ys' added' h
      unfold tryTerms at h
      simp at h
      rw [← h.1]
      exact fun t0 l hl => Or.inl hl
  | cons t rest ih =>
      intro ys added ys' added' h
      unfold tryTerms at h
      split at h
      · simp at h
      next slot hg =>
        split at h
        · simp at h
        next c hc =>
          obtain ⟨hsl, hval⟩ := getTerm_some_slotOf ys t slot hg
          split at h
          next hle =>
            intro t0 l hl
            rcases ih _ _ _ _ h t0 l hl with hin | ⟨hc', hmem⟩
            · rw [slotOf_setTerm ys (dictInsert slot cname c) t t0 hval] at hin
              by_cases ht : t0 = t
              · rw [if_pos ht] at hin
                rcases (dictKeys_dictInsert slot cname c l).mp hin with hin | hin
                · exact Or.inr ⟨hin, by rw [ht]; exact List.mem_cons_self t rest⟩
                · exact Or.inl (by rw [ht, hsl]; exact hin)
              · rw [if_neg ht] at hin
                exact Or.inl hin
            · exact Or.inr ⟨hc', List.mem_cons_of_mem _ hmem⟩
          next hle =>
            intro t0 l hl
            rcases ih _ _ _ _ h t0 l hl with hin | ⟨hc', hmem⟩
            · exact Or.inl hin
            · exact Or.inr ⟨hc', List.mem_cons_of_mem _ hmem⟩

/-- Keys reaching a slot during the inner loop either were there before
    or end up recorded in `classes_added`. -/
theorem tryTerms_slot_added (cc : List (String × Int)) (cname : String)
    (ts : List String) :
    ∀ ys added ys' added', tryTerms cc cname ys added ts = .ok (ys', added') →
      ∀ t0 l, l ∈ dictKeys (slotOf ys' t0) →
        l ∈ dictKeys (slotOf ys t0) ∨ l ∈ added' := by
  induction ts with
  | nil =>
      intro ys added ys' added' h
      unfold tryTerms at h
      simp at h
      rw [← h.1]
      exact fun t0 l hl => Or.inl hl
  | cons t rest ih =>
      intro ys added ys' added' h
      unfold tryTerms at h
      split at h
      · simp at h
      next slot hg =>
        split at h
        · simp at h
        next c hc =>
          obtain ⟨hsl, hval⟩ := getTerm_some_slotOf ys t slot hg
          split at h
          next hle =>
            intro t0 l hl
            rcases ih _ _ _ _ h t0 l hl with hin | hadd
            · rw [slotOf_setTerm ys (dictInsert slot cname c) t t0 hval] at hin
              by_cases ht : t0 = t
              · rw [if_pos ht] at hin
                rcases (dictKeys_dictInsert slot cname c l).mp hin with hin | hin
                · right
                  obtain ⟨ns, hns, _⟩ := tryTerms_added cc cname rest _ _ _ _ h
                  rw [hns, hin]
                  simp
                · exact Or.inl (by rw [ht, hsl]; exact hin)
              · rw [if_neg ht] at hin
                exact Or.inl hin
            · exact Or.inr hadd
          next hle =>
            exact ih _ _ _ _ h

/-- Every name recorded in `classes_added` during the inner loop was
    already recorded or sits in some slot at the end of the loop. -/
theorem tryTerms_added_in_slots (cc : List (String × Int)) (cname : String)
    (ts : List String) :
    ∀ ys added ys' added', tryTerms cc cname ys added ts = .ok (ys', added') →
      ∀ l ∈ added', l ∈ added ∨ l ∈ yearLabels ys' := by
  induction ts with
  | nil =>
      intro ys added ys' added' h
      unfold tryTerms at h
      simp at h
      rw [← h.2]
      exact fun l hl => Or.inl hl
  | cons t rest ih =>
      intro ys added ys' added' h
      unfold tryTerms at h
      split at h
      · simp at h
      next slot hg =>
        split at h
        · simp at h
        next c hc =>
          obtain ⟨hsl, hval⟩ := getTerm_some_slotOf ys t slot hg
          split at h
          next hle =>
            intro l hl
            rcases ih _ _ _ _ h l hl with hl1 | hl1
            · rcases List.mem_append.mp hl1 with h2 | h2
              · exact Or.inl h2
              · right
                have hlc : l = cname := by simpa using h2
                rw [mem_yearLabels]
                have hin1 : l ∈ dictKeys
                    (slotOf (setTerm ys t (dictInsert slot cname c)) t) := by
                  rw [slotOf_setTerm ys (dictInsert slot cname c) t t hval, if_pos rfl]
                  exact (dictKeys_dictInsert slot cname c l).mpr (Or.inl hlc)
                have hin' := tryTerms_slot_mono cc cname rest _ _ _ _ h t l hin1
                rcases hval with h1 | h1 | h1 <;> rw [h1] at hin' <;> tauto
            · exact Or.inr hl1
          next hle =>
            exact ih _ _ _ _ h

/-- The year's class pass keeps every slot sound. -/
theorem passClasses_yearOk (cc : List (String × Int))
    (entries : List (String × List String)) :
    ∀ ys added ys' added', passClasses cc ys added entries = .ok (ys', added') →
      YearOk cc ys → YearOk cc ys' := by
  induction entries with
  | nil =>
      intro ys added ys' added' h hok
      unfold passClasses at h
      simp at h
      rw [← h.1]
      exact hok
  | cons e rest ih =>
      intro ys added ys' added' h hok
      obtain ⟨cname, terms⟩ := e
      unfold passClasses at h
      split at h
      · simp at h
      next ys1 added1 heq =>
        exact ih ys1 added1 ys' added' h
          (tryTerms_ok_yearOk cc cname terms ys added ys1 added1 heq hok)

/-- `classes_added` only grows during the class pass. -/
theorem passClasses_added_mono (cc : List (String × Int))
    (entries : List (String × List String)) :
    ∀ ys added ys' added', passClasses cc ys added entries = .ok (ys', added') →
      ∀ l ∈ added, l ∈ added' := by
  induction entries with
  | nil =>
      intro ys added ys' added' h
      unfold passClasses at h
      simp at h
      rw [← h.2]
      exact fun l hl => hl
  | cons e rest ih =>
      intro ys added ys' added' h
      obtain ⟨cname, terms⟩ := e
      unfold passClasses at h
      split at h
      · simp at h
      next ys1 added1 heq =>
        intro l hl
        obtain ⟨ns, hns, _⟩ := tryTerms_added cc cname terms ys added ys1 added1 heq
        exact ih ys1 added1 ys' added' h l (by rw [hns]; exact List.mem_append_left ns hl)

/-- Slot keys only grow during the class pass. -/
theorem passClasses_slot_mono (cc : List (String × Int))
    (entries : List (String × List String)) :
    ∀ ys added ys' added', passClasses cc ys added entries = .ok (ys', added') →
      ∀ t0 l, l ∈ dictKeys (slotOf ys t0) → l ∈ dictKeys (slotOf ys' t0) := by
  induction entries with
  | nil =>
      intro ys added ys' added' h
      unfold passClasses at h
      simp at h
      rw [← h.1]
      exact fun t0 l hl => hl
  | cons e rest ih =>
      intro ys added ys' added' h
      obtain ⟨cname, terms⟩ := e
      unfold passClasses at h
      split at h
      · simp at h
      next ys1 added1 heq =>
        intro t0 l hl
        exact ih ys1 added1 ys' added' h t0 l
          (tryTerms_slot_mono cc cname terms ys added ys1 added1 heq t0 l hl)

/-- Keys reaching a slot during the class pass either were there before
    or belong to a catalog entry offering that term. -/
theorem passClasses_slot_sub (cc : List (String × Int))
    (entries : List (String × List String)) :
    ∀ ys added ys' added', passClasses cc ys added entries = .ok (ys', added') →
      ∀ t0 l, l ∈ dictKeys (slotOf ys' t0) →
        l ∈ dictKeys (slotOf ys t0) ∨ ∃ e ∈ entries, l = e.1 ∧ t0 ∈ e.2 := by
  induction entries with
  | nil =>
      intro ys added ys' added' h
      unfold passClasses at h
      simp at h
      rw [← h.1]
      exact fun t0 l hl => Or.inl hl
  | cons e rest ih =>
      intro ys added ys' added' h
      obtain ⟨cname, terms⟩ := e
      unfold passClasses at h
      split at h
      · simp at h
      next ys1 added1 heq =>
        intro t0 l hl
        rcases ih ys1 added1 ys' added' h t0 l hl with hin | ⟨e1, he1, h1, h2⟩
        · rcases tryTerms_slot_sub cc cname terms ys added ys1 added1 heq t0 l hin with
            hin1 | ⟨hc1, ht1⟩
          · exact Or.inl hin1
          · exact Or.inr ⟨(cname, terms), List.mem_cons_self _ rest, hc1, ht1⟩
        · exact Or.inr ⟨e1, List.mem_cons_of_mem _ he1, h1, h2⟩

/-- Keys reaching a slot during the class pass either were there before
    or end up recorded in `classes_added`. -/
theorem passClasses_slot_added (cc : List (String × Int))
    (entries : List (String × List String)) :
    ∀ ys added ys' added', passClasses cc ys added entries = .ok (ys', added') →
      ∀ t0 l, l ∈ dictKeys (slotOf ys' t0) →
        l ∈ dictKeys (slotOf ys t0) ∨ l ∈ added' := by
  induction entries with
  | nil =>
      intro ys added ys' added' h
      unfold passClasses at h
      simp at h
      rw [← h.1]
      exact fun t0 l hl => Or.inl hl
  | cons e rest ih =>
      intro ys added ys' added' h
      obtain ⟨cname, terms⟩ := e
      unfold passClasses at h
      split at h
      · simp at h
      next ys1 added1 heq =>
        intro t0 l hl
        rcases ih ys1 added1 ys' added' h t0 l hl with hin | hadd
        · rcases tryTerms_slot_added cc cname terms ys added ys1 added1 heq t0 l hin with
            hin1 | hadd1
          · exact Or.inl hin1
          · exact Or.inr (passClasses_added_mono cc rest ys1 added1 ys' added' h l hadd1)
        · exact Or.inr hadd

/-- Every name recorded in `classes_added` during the class pass was
    already recorded or sits in some slot at the end of the pass. -/
theorem passClasses_added_in_slots (cc : List (String × Int))
    (entries : List (String × List String)) :
    ∀ ys added ys' added', passClasses cc ys added entries = .ok (ys', added') →
      ∀ l ∈ added', l ∈ added ∨ l ∈ yearLabels ys' := by
  induction entries with
  | nil =>
      intro ys added ys' added' h
      unfold passClasses at h
      simp at h
      rw [← h.2]
      exact fun l hl => Or.inl hl
  | cons e rest ih =>
      intro ys added ys' added' h
      obtain ⟨cname, terms⟩ := e
      unfold passClasses at h
      split at h
      · simp at h
      next ys1 added1 heq =>
        intro l hl
        rcases ih ys1 added1 ys' added' h l hl with hl1 | hl1
        · rcases tryTerms_added_in_slots cc cname terms ys added ys1 added1 heq l hl1 with
            hl2 | hl2
          · exact Or.inl hl2
          · right
            rw [mem_yearLabels] at hl2 ⊢
            rcases hl2 with hl2 | hl2 | hl2
            · exact Or.inl (passClasses_slot_mono cc rest ys1 added1 ys' added' h "F" l hl2)
            · exact Or.inr (Or.inl
                (passClasses_slot_mono cc rest ys1 added1 ys' added' h "W" l hl2))
            · exact Or.inr (Or.inr
                (passClasses_slot_mono cc rest ys1 added1 ys' added' h "S" l hl2))
        · exact Or.inr hl1

/-- Starting from a fresh year and an empty `classes_added`, the year's
    placed labels are exactly the recorded ones. -/
theorem passClasses_empty_labels (cc : List (String × Int))
    (entries : List (String × List String)) (ys' : YearSched) (added' : List String)
    (h : passClasses cc emptyYear [] entries = .ok (ys', added')) :
    ∀ l, l ∈ yearLabels ys' ↔ l ∈ added' := by
  intro l
  constructor
  · intro hl
    rw [mem_yearLabels] at hl
    rcases hl with hl | hl | hl <;>
    · rcases passClasses_slot_added cc entries emptyYear [] ys' added' h _ l hl with
        hin | hin
      · rw [slotOf_emptyYear] at hin
        simp [dictKeys] at hin
      · exact hin
  · intro hl
    rcases passClasses_added_in_slots cc entries emptyYear [] ys' added' h l hl with
      hin | hin
    · simp at hin
    · exact hin

/-- Entries surviving the year-end removal are entries of the dict it
    started from. -/
theorem popAll_sub (added : List String) :
    ∀ ctc ctc', popAll ctc added = .ok ctc' → ∀ e ∈ ctc', e ∈ ctc := by
  induction added with
  | nil =>
      intro ctc ctc' h
      unfold popAll at h
      simp at h
      rw [← h]
      exact fun e he => he
  | cons c cs ih =>
      intro ctc ctc' h
      unfold popAll at h
      split at h
      · simp at h
      next d1 hpop =>
        exact fun e he => dictPop_mem ctc c d1 hpop e (ih d1 ctc' h e he)

/-- The year-end removal, on a dict with unique keys: it succeeds exactly
    by removing the recorded names, its result keeps unique keys, every
    recorded name was a key, and the surviving keys are the old keys not
    recorded. -/
theorem popAll_ok (added : List String) :
    ∀ ctc ctc', popAll ctc added = .ok ctc' → (dictKeys ctc).Nodup →
      (∀ l, l ∈ dictKeys ctc' ↔ l ∈ dictKeys ctc ∧ l ∉ added)
      ∧ (dictKeys ctc').Nodup
      ∧ (∀ l ∈ added, l ∈ dictKeys ctc) := by
  induction added with
  | nil =>
      intro ctc ctc' h hnd
      unfold popAll at h
      simp at h
      subst h
      exact ⟨fun l => by simp, hnd, by simp⟩
  | cons c cs ih =>
      intro ctc ctc' h hnd
      unfold popAll at h
      split at h
      · simp at h
      next d1 hpop =>
        have hkeys := dictPop_keys ctc c d1 hpop
        have hnd1 : (dictKeys d1).Nodup := by
          rw [hkeys]
          exact hnd.erase c
        obtain ⟨hiff, hndF, hsub⟩ := ih d1 ctc' h hnd1
        refine ⟨?_, hndF, ?_⟩
        · intro l
          rw [hiff l, hkeys, List.Nodup.mem_erase_iff hnd]
          constructor
          · rintro ⟨⟨hne, hl⟩, hcs⟩
            exact ⟨hl, by simp [hne, hcs]⟩
          · rintro ⟨hl, hnin⟩
            simp [List.mem_cons] at hnin
            exact ⟨⟨hnin.1, hl⟩, hnin.2⟩
        · intro l hl
          rcases List.mem_cons.mp hl with hl | hl
          · rw [hl]
            exact dictPop_mem_keys ctc c d1 hpop
          · have hm := hsub l hl
            rw [hkeys] at hm
            exact List.mem_of_mem_erase hm

/-- Labels of a schedule extended by one year. -/
theorem mem_schedLabels_append (s1 : List (Int × YearSched)) (y : Int)
    (ys : YearSched) (l : String) :
    l ∈ schedLabels (s1 ++ [(y, ys)]) ↔ l ∈ schedLabels s1 ∨ l ∈ yearLabels ys := by
  simp [schedLabels]

/-- The year-by-year build keeps every slot of every emitted year sound. -/
theorem buildYears_yearOk (cc : List (String × Int)) (yrs : List Int) :
    ∀ ctc sched sched' ctcF, buildYears cc ctc sched yrs = .ok (sched', ctcF) →
      (∀ e ∈ sched, YearOk cc e.2) → ∀ e ∈ sched', YearOk cc e.2 := by
  induction yrs with
  | nil =>
      intro ctc sched sched' ctcF h hok
      unfold buildYears at h
      simp at h
      rw [← h.1]
      exact hok
  | cons y ys ih =>
      intro ctc sched sched' ctcF h hok
      unfold buildYears at h
      split at h
      · simp at h
      next yearSched added hpass =>
        split at h
        · simp at h
        next ctc1 hpop =>
          apply ih ctc1 _ sched' ctcF h
          intro e he
          rcases List.mem_append.mp he with he | he
          · exact hok e he
          · have he' : e = (y, yearSched) := by simpa using he
            rw [he']
            exact passClasses_yearOk cc ctc emptyYear [] yearSched added hpass
              (yearOk_emptyYear cc)

/-- The year-by-year build places classes only into terms their catalog
    entry offers. -/
theorem buildYears_eligible (cc : List (String × Int))
    (D : List (String × List String)) (yrs : List Int) :
    ∀ ctc sched sched' ctcF, buildYears cc ctc sched yrs = .ok (sched', ctcF) →
      (∀ e ∈ ctc, e ∈ D) →
      (∀ yys ∈ sched, EligibleYear D yys.2) →
      ∀ yys ∈ sched', EligibleYear D yys.2 := by
  induction yrs with
  | nil =>
      intro ctc sched sched' ctcF h hD hok
      unfold buildYears at h
      simp at h
      rw [← h.1]
      exact hok
  | cons y ys ih =>
      intro ctc sched sched' ctcF h hD hok
      unfold buildYears at h
      split at h
      · simp at h
      next yearSched added hpass =>
        split at h
        · simp at h
        next ctc1 hpop =>
          apply ih ctc1 _ sched' ctcF h
          · exact fun e he => hD e (popAll_sub added ctc ctc1 hpop e he)
          · intro yys hy
            rcases List.mem_append.mp hy with hy | hy
            · exact hok yys hy
            · have hy' : yys = (y, yearSched) := by simpa using hy
              rw [hy']
              intro t0 l hl
              rcases passClasses_slot_sub cc ctc emptyYear [] yearSched added hpass
                  t0 l hl with hin | ⟨e, he, h1, h2⟩
              · rw [slotOf_emptyYear] at hin
                simp [dictKeys] at hin
              · refine ⟨e.2, ?_, h2⟩
                have hle : (l, e.2) = e := by rw [h1]
                rw [hle]
                exact hD e he

/-- The year-by-year build partitions the working keys: a key of the
    starting dict either survives to the end or appears among the emitted
    schedule's labels, never both. -/
theorem buildYears_partition (cc : List (String × Int)) (yrs : List Int) :
    ∀ ctc sched sched' ctcF, buildYears cc ctc sched yrs = .ok (sched', ctcF) →
      (dictKeys ctc).Nodup →
      (dictKeys ctcF).Nodup
      ∧ (∀ l ∈ dictKeys ctcF, l ∈ dictKeys ctc)
      ∧ (∀ l, l ∈ schedLabels sched' ↔
            l ∈ schedLabels sched ∨ (l ∈ dictKeys ctc ∧ l ∉ dictKeys ctcF)) := by
  induction yrs with
  | nil =>
      intro ctc sched sched' ctcF h hnd
      unfold buildYears at h
      simp at h
      obtain ⟨h1, h2⟩ := h
      subst h1
      subst h2
      exact ⟨hnd, fun l hl => hl, fun l => by tauto⟩
  | cons y ys ih =>
      intro ctc sched sched' ctcF h hnd
      unfold buildYears at h
      split at h
      · simp at h
      next yearSched added hpass =>
        split at h
        · simp at h
        next ctc1 hpop =>
          obtain ⟨hiff1, hnd1, hsub1⟩ := popAll_ok added ctc ctc1 hpop hnd
          obtain ⟨hndF, hmono, hiff⟩ := ih ctc1 (sched ++ [(y, yearSched)]) sched' ctcF h hnd1
          have hYA : ∀ l, l ∈ yearLabels yearSched ↔ l ∈ added :=
            passClasses_empty_labels cc ctc yearSched added hpass
          refine ⟨hndF, ?_, ?_⟩
          · exact fun l hl => ((hiff1 l).mp (hmono l hl)).1
          · intro l
            rw [hiff l, mem_schedLabels_append]
            have h1 := hsub1 l
            have h2 := hmono l
            have h3 := hiff1 l
            have h4 := hYA l
            constructor
            · rintro ((hs | hy) | ⟨hc1, hF⟩)
              · exact Or.inl hs
              · right
                have hadd := h4.mp hy
                exact ⟨h1 hadd, fun hF => ((h3.mp (h2 hF)).2) hadd⟩
              · exact Or.inr ⟨(h3.mp hc1).1, hF⟩
            · rintro (hs | ⟨hc, hF⟩)
              · exact Or.inl (Or.inl hs)
              · by_cases hadd : l ∈ added
                · exact Or.inl (Or.inr (h4.mpr hadd))
                · exact Or.inr ⟨h3.mpr ⟨hc, hadd⟩, hF⟩

/-- Unpacking a normal return of `create_schedule`: the underlying build
    finished and the unplaced report is the surviving keys. -/
theorem create_schedule_ok_build (p : Planner) (sched : List (Int × YearSched))
    (unplaced : List String)
    (h : (create_schedule p).result = .ok (sched, unplaced)) :
    ∃ ctcF, buildYears p.class_credits p.class_terms [] (years p.start_year)
        = .ok (sched, ctcF) ∧ unplaced = dictKeys ctcF := by
  have hres : (create_schedule p).result
      = match buildYears p.class_credits p.class_terms [] (years p.start_year) with
        | .error e => .error e
        | .ok (sched, ctc) => .ok (sched, dictKeys ctc) := rfl
  rw [hres] at h
  cases hb : buildYears p.class_credits p.class_terms [] (years p.start_year) with
  | error e =>
      rw [hb] at h
      simp at h
  | ok r =>
      obtain ⟨s0, c0⟩ := r
      rw [hb] at h
      simp at h
      obtain ⟨h1, h2⟩ := h
      subst h1
      exact ⟨c0, rfl, h2.symm⟩

/-- C3: whenever `create_schedule` returns a schedule, every (year, term)
    slot's assigned credits sum to at most `MAX_CREDS` (18). -/
theorem create_schedule_slot_cap (p : Planner) (sched : List (Int × YearSched))
    (unplaced : List String)
    (h : (create_schedule p).result = .ok (sched, unplaced)) :
    ∀ e ∈ sched, dictSum e.2.F ≤ MAX_CREDS ∧ dictSum e.2.W ≤ MAX_CREDS
      ∧ dictSum e.2.S ≤ MAX_CREDS := by
  obtain ⟨ctcF, hb, _⟩ := create_schedule_ok_build p sched unplaced h
  intro e he
  have hok := buildYears_yearOk p.class_credits (years p.start_year) p.class_terms []
      sched ctcF hb (by simp) e he
  exact ⟨hok.1.1, hok.2.1.1, hok.2.2.1⟩

/-- Witness for C3: the one-course catalog builds successfully and its
    year-22 slots respect the cap. -/
theorem create_schedule_slot_cap_witness :
    dictSum (⟨[("ALG 1", 4)], [], []⟩ : YearSched).F ≤ MAX_CREDS
    ∧ dictSum (⟨[("ALG 1", 4)], [], []⟩ : YearSched).W ≤ MAX_CREDS
    ∧ dictSum (⟨[("ALG 1", 4)], [], []⟩ : YearSched).S ≤ MAX_CREDS :=
  create_schedule_slot_cap plannerSingle
    [(22, ⟨[("ALG 1", 4)], [], []⟩), (23, emptyYear), (24, emptyYear), (25, emptyYear)]
    [] rfl ((22 : Int), (⟨[("ALG 1", 4)], [], []⟩ : YearSched)) (by simp)

/-- C4: whenever `create_schedule` returns, the reported unplaced labels
    and the labels placed in the schedule are disjoint, and together they
    are exactly the catalog's labels (the keys of `class_terms`). -/
theorem create_schedule_partition (p : Planner) (sched : List (Int × YearSched))
    (unplaced : List String)
    (h : (create_schedule p).result = .ok (sched, unplaced))
    (hnd : (dictKeys p.class_terms).Nodup) :
    ∀ l, ((l ∈ unplaced ∨ l ∈ schedLabels sched) ↔ l ∈ dictKeys p.class_terms)
      ∧ ¬ (l ∈ unplaced ∧ l ∈ schedLabels sched) := by
  obtain ⟨ctcF, hb, hu⟩ := create_schedule_ok_build p sched unplaced h
  obtain ⟨hndF, hmono, hiff⟩ := buildYears_partition p.class_credits
      (years p.start_year) p.class_terms [] sched ctcF hb hnd
  intro l
  have h1 := hiff l
  have h0 : schedLabels ([] : List (Int × YearSched)) = [] := rfl
  rw [h0] at h1
  simp only [List.not_mem_nil, false_or] at h1
  rw [hu]
  constructor
  · constructor
    · rintro (hl | hl)
      · exact hmono l hl
      · exact (h1.mp hl).1
    · intro hl
      by_cases hF : l ∈ dictKeys ctcF
      · exact Or.inl hF
      · exact Or.inr (h1.mpr ⟨hl, hF⟩)
  · rintro ⟨hl1, hl2⟩
    exact (h1.mp hl2).2 hl1

/-- Witness for C4: on the one-course catalog, the placed label "ALG 1"
    accounts for the whole catalog and is not reported unplaced. -/
theorem create_schedule_partition_witness :
    (("ALG 1" ∈ ([] : List String)
        ∨ "ALG 1" ∈ schedLabels [((22 : Int), (⟨[("ALG 1", 4)], [], []⟩ : YearSched)),
            (23, emptyYear), (24, emptyYear), (25, emptyYear)])
      ↔ "ALG 1" ∈ dictKeys plannerSingle.class_terms)
    ∧ ¬ ("ALG 1" ∈ ([] : List String)
        ∧ "ALG 1" ∈ schedLabels [((22 : Int), (⟨[("ALG 1", 4)], [], []⟩ : YearSched)),
            (23, emptyYear), (24, emptyYear), (25, emptyYear)]) :=
  create_schedule_partition plannerSingle
    [(22, ⟨[("ALG 1", 4)], [], []⟩), (23, emptyYear), (24, emptyYear), (25, emptyYear)]
    [] rfl (by decide) "ALG 1"

/-- C5: whenever `create_schedule` returns, every class sits only under
    terms listed in its catalog entry (its eligible terms). -/
theorem create_schedule_eligible_terms (p : Planner) (sched : List (Int × YearSched))
    (unplaced : List String)
    (h : (create_schedule p).result = .ok (sched, unplaced))
    (hnd : (dictKeys p.class_terms).Nodup) :
    ∀ e ∈ sched, ∀ t l, l ∈ dictKeys (slotOf e.2 t) →
      ∃ ts, dictFind p.class_terms l = some ts ∧ t ∈ ts := by
  obtain ⟨ctcF, hb, _⟩ := create_schedule_ok_build p sched unplaced h
  have helig := buildYears_eligible p.class_credits p.class_terms
      (years p.start_year) p.class_terms [] sched ctcF hb (fun e he => he) (by simp)
  intro e he t l hl
  obtain ⟨ts, hmem, ht⟩ := helig e he t l hl
  exact ⟨ts, dictFind_of_mem_nodup p.class_terms l ts hnd hmem, ht⟩

/-- Witness for C5: on the one-course catalog, the course found in the
    year-22 FALL slot is eligible for FALL per the catalog. -/
theorem create_schedule_eligible_terms_witness :
    ∃ ts, dictFind plannerSingle.class_terms "ALG 1" = some ts ∧ "F" ∈ ts :=
  create_schedule_eligible_terms plannerSingle
    [(22, ⟨[("ALG 1", 4)], [], []⟩), (23, emptyYear), (24, emptyYear), (25, emptyYear)]
    [] rfl (by decide) ((22 : Int), (⟨[("ALG 1", 4)], [], []⟩ : YearSched)) (by simp)
    "F" "ALG 1" (by decide)

/-- A present key can be popped. -/
theorem dictPop_of_mem {α : Type} (d : List (String × α)) (k : String)
    (h : k ∈ dictKeys d) : ∃ d', dictPop d k = some d' := by
  induction d with
  | nil => simp [dictKeys] at h
  | cons e0 rest ih =>
      unfold dictPop
      by_cases h0 : e0.1 = k
      · exact ⟨rest, by rw [if_pos h0]⟩
      · rw [dictKeys_cons, List.mem_cons] at h
        rcases h with h | h
        · exact absurd h.symm h0
        · obtain ⟨r, hr⟩ := ih h
          exact ⟨e0 :: r, by rw [if_neg h0, hr, Option.map_some']⟩

/-- Lookup on a cons dict, unfolded. -/
theorem dictFind_cons {α : Type} (e0 : String × α) (rest : List (String × α))
    (q : String) :
    dictFind (e0 :: rest) q = if e0.1 = q then some e0.2 else dictFind rest q := by
  obtain ⟨k0, v0⟩ := e0
  rfl

/-- Popping one key leaves every other lookup unchanged. -/
theorem dictPop_find_ne {α : Type} (d : List (String × α)) (k : String)
    (d' : List (String × α)) (h : dictPop d k = some d') :
    ∀ q, q ≠ k → dictFind d' q = dictFind d q := by
  induction d generalizing d' with
  | nil => simp [dictPop] at h
  | cons e0 rest ih =>
      unfold dictPop at h
      by_cases h0 : e0.1 = k
      · rw [if_pos h0] at h
        injection h with h
        intro q hq
        rw [← h, dictFind_cons, if_neg (fun hh : e0.1 = q => hq (by rw [← hh, h0]))]
      · rw [if_neg h0, Option.map_eq_some'] at h
        obtain ⟨r, hr, hd⟩ := h
        intro q hq
        rw [← hd, dictFind_cons, dictFind_cons]
        by_cases h2 : e0.1 = q
        · rw [if_pos h2, if_pos h2]
        · rw [if_neg h2, if_neg h2]
          exact ih r hr q hq

/-- Assigning a key that is not yet present appends the binding. -/
theorem dictInsert_append {α : Type} (d : List (String × α)) (k : String) (v : α)
    (h : k ∉ dictKeys d) : dictInsert d k v = d ++ [(k, v)] := by
  induction d with
  | nil => rfl
  | cons e0 rest ih =>
      rw [dictKeys_cons, List.mem_cons] at h
      push_neg at h
      unfold dictInsert
      rw [if_neg (fun hh : e0.1 = k => h.1 hh.symm), ih h.2]
      rfl

/-- Membership after removing, from a duplicate-free list, the element at
    the index where a given member first occurs. -/
theorem mem_eraseIdx_indexOf (l : List String) (a : String) (hnd : l.Nodup)
    (ha : a ∈ l) (x : String) :
    x ∈ l.eraseIdx (l.indexOf a) ↔ x ≠ a ∧ x ∈ l := by
  induction l with
  | nil => simp at ha
  | cons b rest ih =>
      obtain ⟨hb1, hnd1⟩ := List.nodup_cons.mp hnd
      by_cases hb : b = a
      · subst hb
        rw [List.indexOf_cons_self]
        simp only [List.eraseIdx_cons_zero, List.mem_cons]
        constructor
        · intro hx
          exact ⟨fun hxb => hb1 (hxb ▸ hx), Or.inr hx⟩
        · rintro ⟨hxb, hx | hx⟩
          · exact absurd hx hxb
          · exact hx
      · have ha' : a ∈ rest := by
          rcases List.mem_cons.mp ha with h | h
          · exact absurd h.symm hb
          · exact h
        rw [List.indexOf_cons_ne rest hb]
        rw [Nat.succ_eq_add_one, List.eraseIdx_cons_succ, List.mem_cons,
          ih hnd1 ha', List.mem_cons]
        constructor
        · rintro (hx | ⟨hxa, hx⟩)
          · exact ⟨fun hxa => hb (hx.symm.trans hxa), Or.inl hx⟩
          · exact ⟨hxa, Or.inr hx⟩
        · rintro ⟨hxa, hx | hx⟩
          · exact Or.inl hx
          · exact Or.inr ⟨hxa, hx⟩

/-- A successful or failed `add_class` preserves consistency together
    with label uniqueness. -/
theorem add_class_preserves (p : Planner) (hC : ConsistentState p)
    (hU : UniqueLabels p) (name : String) (ts : List String) (c : Int) :
    ConsistentState (add_class p name ts c).1
      ∧ UniqueLabels (add_class p name ts c).1 := by
  obtain ⟨hlen1, hlen2, hkt, hkc, hit, hic⟩ := hC
  obtain ⟨hndC, hndT, hndCC⟩ := hU
  by_cases h1 : name ∈ p.classes
  · unfold add_class
    rw [if_pos h1]
    exact ⟨⟨hlen1, hlen2, hkt, hkc, hit, hic⟩, hndC, hndT, hndCC⟩
  · by_cases h2 : ∃ t ∈ ts, ¬ (t = "F" ∨ t = "W" ∨ t = "S")
    · unfold add_class
      rw [if_neg h1, if_pos h2]
      exact ⟨⟨hlen1, hlen2, hkt, hkc, hit, hic⟩, hndC, hndT, hndCC⟩
    · by_cases h3 : c ≤ 0
      · unfold add_class
        rw [if_neg h1, if_neg h2, if_pos h3]
        exact ⟨⟨hlen1, hlen2, hkt, hkc, hit, hic⟩, hndC, hndT, hndCC⟩
      · have hninT : name ∉ dictKeys p.class_terms := fun hmem =>
          h1 ((hkt name).mp ((dictFind_isSome_iff_mem p.class_terms name).mpr hmem))
        have hninC : name ∉ dictKeys p.class_credits := fun hmem =>
          h1 ((hkc name).mp ((dictFind_isSome_iff_mem p.class_credits name).mpr hmem))
        have hres : add_class p name ts c
            = ({ p with
                  classes := p.classes ++ [name]
                  terms := p.terms ++ [ts]
                  credits := p.credits ++ [c]
                  class_terms := dictInsert p.class_terms name ts
                  class_credits := dictInsert p.class_credits name c }, none) := by
          unfold add_class
          rw [if_neg h1, if_neg h2, if_neg h3]
        rw [hres]
        refine ⟨⟨?_, ?_, ?_, ?_, ?_, ?_⟩, ?_, ?_, ?_⟩
        · show (p.classes ++ [name]).length = (p.terms ++ [ts]).length
          simp [hlen1]
        · show (p.classes ++ [name]).length = (p.credits ++ [c]).length
          simp [hlen2]
        · intro k
          show (dictFind (dictInsert p.class_terms name ts) k).isSome = true
            ↔ k ∈ p.classes ++ [name]
          rw [dictFind_dictInsert]
          by_cases hk : name = k
          · rw [if_pos hk]
            simp [← hk]
          · rw [if_neg hk]
            constructor
            · intro hs
              exact List.mem_append_left _ ((hkt k).mp hs)
            · intro hm
              rcases List.mem_append.mp hm with hm | hm
              · exact (hkt k).mpr hm
              · exact absurd (List.mem_singleton.mp hm).symm hk
        · intro k
          show (dictFind (dictInsert p.class_credits name c) k).isSome = true
            ↔ k ∈ p.classes ++ [name]
          rw [dictFind_dictInsert]
          by_cases hk : name = k
          · rw [if_pos hk]
            simp [← hk]
          · rw [if_neg hk]
            constructor
            · intro hs
              exact List.mem_append_left _ ((hkc k).mp hs)
            · intro hm
              rcases List.mem_append.mp hm with hm | hm
              · exact (hkc k).mpr hm
              · exact absurd (List.mem_singleton.mp hm).symm hk
        · intro i h
          replace h : i < (p.classes ++ [name]).length := h
          rw [List.length_append, List.length_singleton] at h
          show dictFind (dictInsert p.class_terms name ts)
              ((p.classes ++ [name]).get ⟨i, by simpa using h⟩) = (p.terms ++ [ts])[i]?
          rw [List.get_eq_getElem]
          by_cases hlt : i < p.classes.length
          · rw [List.getElem_append_left hlt]
            have hmem := List.getElem_mem hlt
            have hne : ¬ (name = p.classes[i]) := fun hh => h1 (hh ▸ hmem)
            rw [dictFind_dictInsert, if_neg hne]
            have hterm := hit i hlt
            rw [List.get_eq_getElem] at hterm
            rw [hterm, List.getElem?_append, if_pos (by omega : i < p.terms.length)]
          · have hi : i = p.classes.length := by omega
            rw [List.getElem_concat_length p.classes name i hi]
            rw [dictFind_dictInsert, if_pos rfl]
            rw [List.getElem?_append, if_neg (by omega : ¬ i < p.terms.length)]
            have hz : i - p.terms.length = 0 := by omega
            rw [hz]
            rfl
        · intro i h
          replace h : i < (p.classes ++ [name]).length := h
          rw [List.length_append, List.length_singleton] at h
          show dictFind (dictInsert p.class_credits name c)
              ((p.classes ++ [name]).get ⟨i, by simpa using h⟩) = (p.credits ++ [c])[i]?
          rw [List.get_eq_getElem]
          by_cases hlt : i < p.classes.length
          · rw [List.getElem_append_left hlt]
            have hmem := List.getElem_mem hlt
            have hne : ¬ (name = p.classes[i]) := fun hh => h1 (hh ▸ hmem)
            rw [dictFind_dictInsert, if_neg hne]
            have hterm := hic i hlt
            rw [List.get_eq_getElem] at hterm
            rw [hterm, List.getElem?_append, if_pos (by omega : i < p.credits.length)]
          · have hi : i = p.classes.length := by omega
            rw [List.getElem_concat_length p.classes name i hi]
            rw [dictFind_dictInsert, if_pos rfl]
            rw [List.getElem?_append, if_neg (by omega : ¬ i < p.credits.length)]
            have hz : i - p.credits.length = 0 := by omega
            rw [hz]
            rfl
        · show (p.classes ++ [name]).Nodup
          rw [List.nodup_append]
          exact ⟨hndC, List.nodup_singleton name,
            fun a ha hb => h1 ((List.mem_singleton.mp hb) ▸ ha)⟩
        · show (dictKeys (dictInsert p.class_terms name ts)).Nodup
          rw [dictInsert_append p.class_terms name ts hninT]
          have hk : dictKeys (p.class_terms ++ [(name, ts)])
              = dictKeys p.class_terms ++ [name] := by simp [dictKeys]
          rw [hk, List.nodup_append]
          exact ⟨hndT, List.nodup_singleton name,
            fun a ha hb => hninT ((List.mem_singleton.mp hb) ▸ ha)⟩
        · show (dictKeys (dictInsert p.class_credits name c)).Nodup
          rw [dictInsert_append p.class_credits name c hninC]
          have hk : dictKeys (p.class_credits ++ [(name, c)])
              = dictKeys p.class_credits ++ [name] := by simp [dictKeys]
          rw [hk, List.nodup_append]
          exact ⟨hndCC, List.nodup_singleton name,
            fun a ha hb => hninC ((List.mem_singleton.mp hb) ▸ ha)⟩

/-- A successful or failed `remove_class` preserves consistency together
    with label uniqueness. -/
theorem remove_class_preserves (p : Planner) (hC : ConsistentState p)
    (hU : UniqueLabels p) (name : String) :
    ConsistentState (remove_class p name).1
      ∧ UniqueLabels (remove_class p name).1 := by
  obtain ⟨hlen1, hlen2, hkt, hkc, hit, hic⟩ := hC
  obtain ⟨hndC, hndT, hndCC⟩ := hU
  by_cases h1 : name ∈ p.classes
  case neg =>
    unfold remove_class
    rw [if_neg h1]
    exact ⟨⟨hlen1, hlen2, hkt, hkc, hit, hic⟩, hndC, hndT, hndCC⟩
  case pos =>
    have hidx : p.classes.indexOf name < p.classes.length :=
      List.indexOf_lt_length.mpr h1
    have h2 : p.classes.indexOf name < p.terms.length := by omega
    have h3 : p.classes.indexOf name < p.credits.length := by omega
    have hkeyT : name ∈ dictKeys p.class_terms := by
      rw [← dictFind_isSome_iff_mem]
      exact (hkt name).mpr h1
    have hkeyC : name ∈ dictKeys p.class_credits := by
      rw [← dictFind_isSome_iff_mem]
      exact (hkc name).mpr h1
    obtain ⟨ct, hct⟩ := dictPop_of_mem p.class_terms name hkeyT
    obtain ⟨cc, hcc⟩ := dictPop_of_mem p.class_credits name hkeyC
    have hres : remove_class p name
        = ({ p with
              classes := p.classes.eraseIdx (p.classes.indexOf name)
              terms := p.terms.eraseIdx (p.classes.indexOf name)
              credits := p.credits.eraseIdx (p.classes.indexOf name)
              class_terms := ct
              class_credits := cc }, none) := by
      simp only [remove_class, if_pos h1, if_pos h2, if_pos h3, hct, hcc]
    have hname := List.getElem_indexOf hidx
    have hlE1 := List.length_eraseIdx_add_one hidx
    have hlE2 := List.length_eraseIdx_add_one h2
    have hlE3 := List.length_eraseIdx_add_one h3
    have hkeysT := dictPop_keys p.class_terms name ct hct
    have hkeysC := dictPop_keys p.class_credits name cc hcc
    rw [hres]
    refine ⟨⟨?_, ?_, ?_, ?_, ?_, ?_⟩, ?_, ?_, ?_⟩
    · show (p.classes.eraseIdx (p.classes.indexOf name)).length
        = (p.terms.eraseIdx (p.classes.indexOf name)).length
      omega
    · show (p.classes.eraseIdx (p.classes.indexOf name)).length
        = (p.credits.eraseIdx (p.classes.indexOf name)).length
      omega
    · intro k
      show (dictFind ct k).isSome = true
        ↔ k ∈ p.classes.eraseIdx (p.classes.indexOf name)
      rw [dictFind_isSome_iff_mem, hkeysT, List.Nodup.mem_erase_iff hndT,
        mem_eraseIdx_indexOf p.classes name hndC h1 k]
      constructor
      · rintro ⟨hne, hmem⟩
        exact ⟨hne, (hkt k).mp ((dictFind_isSome_iff_mem _ _).mpr hmem)⟩
      · rintro ⟨hne, hmem⟩
        exact ⟨hne, (dictFind_isSome_iff_mem _ _).mp ((hkt k).mpr hmem)⟩
    · intro k
      show (dictFind cc k).isSome = true
        ↔ k ∈ p.classes.eraseIdx (p.classes.indexOf name)
      rw [dictFind_isSome_iff_mem, hkeysC, List.Nodup.mem_erase_iff hndCC,
        mem_eraseIdx_indexOf p.classes name hndC h1 k]
      constructor
      · rintro ⟨hne, hmem⟩
        exact ⟨hne, (hkc k).mp ((dictFind_isSome_iff_mem _ _).mpr hmem)⟩
      · rintro ⟨hne, hmem⟩
        exact ⟨hne, (dictFind_isSome_iff_mem _ _).mp ((hkc k).mpr hmem)⟩
    · intro i h
      replace h : i < (p.classes.eraseIdx (p.classes.indexOf name)).length := h
      show dictFind ct
          ((p.classes.eraseIdx (p.classes.indexOf name)).get ⟨i, h⟩)
        = (p.terms.eraseIdx (p.classes.indexOf name))[i]?
      rw [List.get_eq_getElem, List.getElem_eraseIdx, List.getElem?_eraseIdx]
      by_cases hcase : i < p.classes.indexOf name
      · rw [dif_pos hcase, if_pos hcase]
        have hb : i < p.classes.length := by omega
        have hne : p.classes[i] ≠ name := by
          intro hh
          rw [← hname] at hh
          exact absurd ((hndC.getElem_inj_iff).mp hh) (by omega)
        rw [dictPop_find_ne p.class_terms name ct hct _ hne]
        have hterm := hit i hb
        rw [List.get_eq_getElem] at hterm
        exact hterm
      · rw [dif_neg hcase, if_neg hcase]
        have hb : i + 1 < p.classes.length := by omega
        have hne : p.classes[i + 1] ≠ name := by
          intro hh
          rw [← hname] at hh
          exact absurd ((hndC.getElem_inj_iff).mp hh) (by omega)
        rw [dictPop_find_ne p.class_terms name ct hct _ hne]
        have hterm := hit (i + 1) hb
        rw [List.get_eq_getElem] at hterm
        exact hterm
    · intro i h
      replace h : i < (p.classes.eraseIdx (p.classes.indexOf name)).length := h
      show dictFind cc
          ((p.classes.eraseIdx (p.classes.indexOf name)).get ⟨i, h⟩)
        = (p.credits.eraseIdx (p.classes.indexOf name))[i]?
      rw [List.get_eq_getElem, List.getElem_eraseIdx, List.getElem?_eraseIdx]
      by_cases hcase : i < p.classes.indexOf name
      · rw [dif_pos hcase, if_pos hcase]
        have hb : i < p.classes.length := by omega
        have hne : p.classes[i] ≠ name := by
          intro hh
          rw [← hname] at hh
          exact absurd ((hndC.getElem_inj_iff).mp hh) (by omega)
        rw [dictPop_find_ne p.class_credits name cc hcc _ hne]
        have hterm := hic i hb
        rw [List.get_eq_getElem] at hterm
        exact hterm
      · rw [dif_neg hcase, if_neg hcase]
        have hb : i + 1 < p.classes.length := by omega
        have hne : p.classes[i + 1] ≠ name := by
          intro hh
          rw [← hname] at hh
          exact absurd ((hndC.getElem_inj_iff).mp hh) (by omega)
        rw [dictPop_find_ne p.class_credits name cc hcc _ hne]
        have hterm := hic (i + 1) hb
        rw [List.get_eq_getElem] at hterm
        exact hterm
    · show (p.classes.eraseIdx (p.classes.indexOf name)).Nodup
      exact List.Nodup.sublist (List.eraseIdx_sublist p.classes _) hndC
    · show (dictKeys ct).Nodup
      rw [hkeysT]
      exact hndT.erase name
    · show (dictKeys cc).Nodup
      rw [hkeysC]
      exact hndCC.erase name

/-- C10 fails as stated: the state with label A listed twice in `classes`
    (and once in each dict) satisfies the consistency invariant, yet a
    successful `remove_class` of A drops only the first list occurrence
    while deleting the dict entries, leaving A in `classes` with no dict
    bindings — the invariant is broken by a mutation. -/
theorem remove_class_breaks_consistency :
    ConsistentState plannerDupA ∧ (remove_class plannerDupA "A").2 = none
      ∧ ¬ ConsistentState (remove_class plannerDupA "A").1 := by
  refine ⟨⟨rfl, rfl, ?_, ?_, ?_, ?_⟩, rfl, ?_⟩
  · intro k
    show (dictFind [("A", ["F"])] k).isSome = true ↔ k ∈ ["A", "A"]
    by_cases h : k = "A"
    · subst h
      decide
    · rw [dictFind_cons, if_neg (fun hh : ("A" : String) = k => h hh.symm)]
      simp [dictFind, h]
  · intro k
    show (dictFind [("A", (4 : Int))] k).isSome = true ↔ k ∈ ["A", "A"]
    by_cases h : k = "A"
    · subst h
      decide
    · rw [dictFind_cons, if_neg (fun hh : ("A" : String) = k => h hh.symm)]
      simp [dictFind, h]
  · intro i h
    have h1 : i < 2 := by simpa [plannerDupA] using h
    interval_cases i <;> rfl
  · intro i h
    have h1 : i < 2 := by simpa [plannerDupA] using h
    interval_cases i <;> rfl
  · intro hcon
    have hres : (remove_class plannerDupA "A").1
        = (⟨["A"], [["F"]], [4], [], [], 22⟩ : Planner) := rfl
    rw [hres] at hcon
    have hbad := (hcon.2.2.1 "A").mpr (by simp)
    simp [dictFind] at hbad

/-- C10 (amended): on any state whose labels are unique — a duplicate-free
    `classes` list and duplicate-free dict keys, as holds for every state
    built from real Python dicts — every `add_class` and `remove_class`
    call, successful or failed, preserves the full consistency invariant
    (equal list lengths, key sets matching the labels, index-wise
    agreement of dicts and lists) together with label uniqueness. -/
theorem planner_mutations_preserve_consistency (p : Planner)
    (h : ConsistentState p ∧ UniqueLabels p) (name : String)
    (ts : List String) (c : Int) :
    (ConsistentState (add_class p name ts c).1
      ∧ UniqueLabels (add_class p name ts c).1)
    ∧ (ConsistentState (remove_class p name).1
      ∧ UniqueLabels (remove_class p name).1) :=
  ⟨add_class_preserves p h.1 h.2 name ts c,
   remove_class_preserves p h.1 h.2 name⟩

/-- Witness for the amended C10: the one-course catalog is consistent with
    unique labels, and both mutations keep it so. -/
theorem planner_mutations_preserve_consistency_witness :
    (ConsistentState (add_class plannerSingle "GEO 2" ["W"] 3).1
      ∧ UniqueLabels (add_class plannerSingle "GEO 2" ["W"] 3).1)
    ∧ (ConsistentState (remove_class plannerSingle "GEO 2").1
      ∧ UniqueLabels (remove_class plannerSingle "GEO 2").1) :=
  planner_mutations_preserve_consistency plannerSingle
    (by
      refine ⟨⟨rfl, rfl, ?_, ?_, ?_, ?_⟩, ?_, ?_, ?_⟩
      · intro k
        show (dictFind [("ALG 1", ["F"])] k).isSome = true ↔ k ∈ ["ALG 1"]
        by_cases h : k = "ALG 1"
        · subst h
          decide
        · rw [dictFind_cons, if_neg (fun hh : ("ALG 1" : String) = k => h hh.symm)]
          simp [dictFind, h]
      · intro k
        show (dictFind [("ALG 1", (4 : Int))] k).isSome = true ↔ k ∈ ["ALG 1"]
        by_cases h : k = "ALG 1"
        · subst h
          decide
        · rw [dictFind_cons, if_neg (fun hh : ("ALG 1" : String) = k => h hh.symm)]
          simp [dictFind, h]
      · intro i h
        have h1 : i < 1 := by simpa [plannerSingle] using h
        interval_cases i
        rfl
      · intro i h
        have h1 : i < 1 := by simpa [plannerSingle] using h
        interval_cases i
        rfl
      · decide
      · decide
      · decide)
    "GEO 2" ["W"] 3
